import Mathlib

/-!
Verification of `langchain/chains/sequential.py`: the `SequentialChain`
(keyed pipeline) and `SimpleSequentialChain` (scalar pipeline) classes.

The embedding mirrors the Python source:
  * a `Chain` step is modelled by its declared `input_keys`, `output_keys`,
    optional memory capability (`memory_variables`), and its invocation
    functions (blocking `run` and suspendable `arun`, modelled as pure
    functions since the pipeline awaits each step to completion);
  * Python `dict`s are modelled as association lists with first-key lookup
    and `dict.update` merge semantics (existing keys overwritten in place,
    new keys appended in order);
  * Python `set`s are modelled as `Finset String`;
  * exceptions raised by validation become an `Except` error value, with a
    distinct constructor for the `IndexError` that `chains[-1]` raises on an
    empty list.
-/

set_option autoImplicit false

deriving instance DecidableEq for Except

namespace Sequential

abbrev Name := String

/-- A Python `dict[str, V]` as an association list (unique keys maintained by
`dictInsert`). -/
abbrev Dict (V : Type) := List (Name × V)

/-- Python `m[k]` lookup: first entry whose key equals `k`, if any. -/
def dictGet? {V : Type} (m : Dict V) (k : Name) : Option V :=
  (m.find? (fun p => p.1 == k)).map (fun p => p.2)

/-- Assignment `m[k] = v` for one key: overwrite the existing entry in place, or append. -/
def dictInsert {V : Type} (m : Dict V) (k : Name) (v : V) : Dict V :=
  if m.any (fun p => p.1 == k) then
    m.map (fun p => if p.1 == k then (k, v) else p)
  else
    m ++ [(k, v)]

/-- Python `m.update(upd)`: insert every entry of `upd` into `m`, in order. -/
def dictUpdate {V : Type} (m upd : Dict V) : Dict V :=
  upd.foldl (fun acc p => dictInsert acc p.1 p.2) m

/-- Python `m.copy()`: a dict with the same entries (value semantics). -/
def dictCopy {V : Type} (m : Dict V) : Dict V := m

/-- Python `{k: m[k] for k in keys}`: `none` models the `KeyError` raised when
some key is absent. -/
def projectKeys {V : Type} (m : Dict V) (keys : List Name) : Option (Dict V) :=
  keys.mapM (fun k => (dictGet? m k).map (fun v => (k, v)))

/-- A step of a `SequentialChain`: the slice of the `Chain` interface that
`sequential.py` consumes.  `memory` is `some keys` when `chain.memory` is not
`None`, carrying that memory's `memory_variables`.  `run` models the blocking
call `chain(known_values, return_only_outputs=True)` (full accumulator in,
outputs dict back) and `arun` the suspendable `chain.acall(...)`. -/
structure ChainStep (V : Type) where
  input_keys : List Name
  output_keys : List Name
  memory : Option (List Name)
  run : Dict V → Dict V
  arun : Dict V → Dict V

/-- The errors `SequentialChain.validate_chains` can raise.  The first four
are the `ValueError`s of the source, carrying the data interpolated into each
message; `indexError` is the `IndexError` raised by `chains[-1]` on `[]`. -/
inductive SeqErr where
  | overlappingMemoryKeys (overlapping : Finset Name) (memory_keys : List Name)
  | missingInput (missing : Finset Name) (known : Finset Name)
  | duplicateOutput (overlapping : Finset Name)
  | unknownOutput (missing : Finset Name)
  | indexError
  deriving DecidableEq

/-- The `missing_vars` set for one chain at known-set `known`:
`set(chain.input_keys).difference(known)`, further subtracting the chain's own
`memory.memory_variables` when `chain.memory` is set. -/
def stepMissing {V : Type} (known : Finset Name) (c : ChainStep V) : Finset Name :=
  match c.memory with
  | some mem => (c.input_keys.toFinset \ known) \ mem.toFinset
  | none => c.input_keys.toFinset \ known

/-- The `for chain in chains` loop of `validate_chains`: check each chain's
missing inputs and output collisions, accumulating the known-set. -/
def checkSteps {V : Type} : List (ChainStep V) → Finset Name → Except SeqErr (Finset Name)
  | [], known => .ok known
  | c :: rest, known =>
    if stepMissing known c ≠ ∅ then
      .error (.missingInput (stepMissing known c) known)
    else if known ∩ c.output_keys.toFinset ≠ ∅ then
      .error (.duplicateOutput (known ∩ c.output_keys.toFinset))
    else
      checkSteps rest (known ∪ c.output_keys.toFinset)

/-- The tail of `validate_chains` after the memory-overlap check: run the
per-chain loop from `known = set(input_variables + memory_keys)`, then compute
or validate `output_variables`. -/
def validateTail {V : Type} (chains : List (ChainStep V)) (input_variables memory_keys : List Name)
    (output_variables : Option (List Name)) (return_all : Bool) :
    Except SeqErr (Finset Name) :=
  match checkSteps chains (input_variables ++ memory_keys).toFinset with
  | .error e => .error e
  | .ok known =>
    match output_variables with
    | none =>
      if return_all then
        .ok (known \ input_variables.toFinset)
      else
        match chains.getLast? with
        | some c => .ok c.output_keys.toFinset
        | none => .error .indexError
    | some o =>
      if o.toFinset \ known = ∅ then .ok o.toFinset
      else .error (.unknownOutput (o.toFinset \ known))

/-- Source `SequentialChain.validate_chains`: `memory` is `some keys` when the
`values` dict has a non-`None` `memory` (carrying its `memory_variables`),
`output_variables` is `some` when `"output_variables" in values`, and
`return_all` is `values.get("return_all", False)`.  Returns the finalized
`output_variables` name-set on success. -/
def validateChains {V : Type} (chains : List (ChainStep V)) (input_variables : List Name)
    (memory : Option (List Name)) (output_variables : Option (List Name))
    (return_all : Bool) : Except SeqErr (Finset Name) :=
  match memory with
  | some memory_keys =>
    if input_variables.toFinset ∩ memory_keys.toFinset ≠ ∅ then
      .error (.overlappingMemoryKeys (input_variables.toFinset ∩ memory_keys.toFinset)
        memory_keys)
    else
      validateTail chains input_variables memory_keys output_variables return_all
  | none => validateTail chains input_variables [] output_variables return_all

/-- The fields of a constructed `SequentialChain` that its `_call`/`_acall`
read (`output_variables` is kept as the list the projection iterates over). -/
structure SequentialChainS (V : Type) where
  chains : List (ChainStep V)
  input_variables : List Name
  output_variables : List Name
  return_all : Bool

/-- The `for i, chain in enumerate(self.chains)` loop of
`SequentialChain._call`: invoke each chain on the full accumulator and
`update` the accumulator with its outputs. -/
def seqRunSteps {V : Type} (chains : List (ChainStep V)) (known_values : Dict V) : Dict V :=
  chains.foldl (fun acc c => dictUpdate acc (c.run acc)) known_values

/-- Same loop in the suspendable path `SequentialChain._acall`, which awaits
each `chain.acall` before the next begins (so it is a sequential fold). -/
def seqRunStepsA {V : Type} (chains : List (ChainStep V)) (known_values : Dict V) : Dict V :=
  chains.foldl (fun acc c => dictUpdate acc (c.arun acc)) known_values

/-- Source `SequentialChain._call`: copy the inputs into a fresh accumulator, thread
it through the chains, and return `{k: known_values[k] for k in
self.output_variables}` (`none` = `KeyError`). -/
def seqCall {V : Type} (p : SequentialChainS V) (inputs : Dict V) : Option (Dict V) :=
  projectKeys (seqRunSteps p.chains (dictCopy inputs)) p.output_variables

/-- Source `SequentialChain._acall`: identical to `_call` except each step runs via
its suspendable form. -/
def seqAcall {V : Type} (p : SequentialChainS V) (inputs : Dict V) : Option (Dict V) :=
  projectKeys (seqRunStepsA p.chains (dictCopy inputs)) p.output_variables

/-- Source `SequentialChain._call` with the state it can reach made explicit: the
returned triple is (result, the instance after the call, the caller's input
dict after the call).  The body assigns only to the local `known_values`
(initialized from `inputs.copy()`), never to `self` or to `inputs`, so the
last two components are the unchanged `p` and `inputs`. -/
def seqCallState {V : Type} (p : SequentialChainS V) (inputs : Dict V) :
    Option (Dict V) × SequentialChainS V × Dict V :=
  let known_values := dictCopy inputs
  (projectKeys (seqRunSteps p.chains known_values) p.output_variables, p, inputs)

/-- A step of a `SimpleSequentialChain`: its declared `input_keys` and
`output_keys` (only their lengths are validated), and its scalar invocation
forms `chain.run(_input, ...)` / `chain.arun(_input, ...)`. -/
structure ScalarStep where
  input_keys : List Name
  output_keys : List Name
  runS : String → String
  arunS : String → String

/-- The `ValueError`s of `SimpleSequentialChain.validate_chains`, each naming
the offending chain and the arity it actually declared. -/
inductive ScalarErr where
  | arityInput (chain : ScalarStep) (n : Nat)
  | arityOutput (chain : ScalarStep) (n : Nat)

/-- Source `SimpleSequentialChain.validate_chains`: each chain in order must declare
exactly one input key (checked first) and exactly one output key. -/
def simpleValidate : List ScalarStep → Except ScalarErr Unit
  | [] => .ok ()
  | c :: rest =>
    if c.input_keys.length ≠ 1 then .error (.arityInput c c.input_keys.length)
    else if c.output_keys.length ≠ 1 then .error (.arityOutput c c.output_keys.length)
    else simpleValidate rest

/-- The fields of a constructed `SimpleSequentialChain` that `_call`/`_acall`
read. -/
structure SimpleSequentialChainS where
  chains : List ScalarStep
  strip_outputs : Bool
  input_key : Name
  output_key : Name

/-- Python `str.strip()`: drop leading and trailing whitespace characters. -/
def pyStrip (s : String) : String :=
  String.mk (((s.data.dropWhile Char.isWhitespace).reverse.dropWhile Char.isWhitespace).reverse)

/-- Source `if self.strip_outputs: _input = _input.strip()`. -/
def stripIf (b : Bool) (s : String) : String := if b then pyStrip s else s

/-- The `for i, chain in enumerate(self.chains)` loop of
`SimpleSequentialChain._call`: thread the scalar through each chain, stripping
when the flag is set, and record each intermediate value as it is reported to
the run manager's `on_text`. -/
def simpleRunSteps (strip : Bool) : List ScalarStep → String → String × List String
  | [], cur => (cur, [])
  | c :: rest, cur =>
    let next := stripIf strip (c.runS cur)
    let r := simpleRunSteps strip rest next
    (r.1, next :: r.2)

/-- Suspendable-path loop of `SimpleSequentialChain._acall` (each `arun` and
`on_text` awaited in order). -/
def simpleRunStepsA (strip : Bool) : List ScalarStep → String → String × List String
  | [], cur => (cur, [])
  | c :: rest, cur =>
    let next := stripIf strip (c.arunS cur)
    let r := simpleRunStepsA strip rest next
    (r.1, next :: r.2)

/-- Source `SimpleSequentialChain._call`: read `inputs[self.input_key]` (`none` =
`KeyError`), run the loop, return the result map `{self.output_key: _input}`
together with the sequence of values reported to the observer. -/
def simpleCall (p : SimpleSequentialChainS) (inputs : Dict String) :
    Option (Dict String × List String) :=
  (dictGet? inputs p.input_key).map (fun x =>
    let r := simpleRunSteps p.strip_outputs p.chains x
    ([(p.output_key, r.1)], r.2))

/-- Source `SimpleSequentialChain._acall`: identical except each chain runs via its
suspendable form. -/
def simpleAcall (p : SimpleSequentialChainS) (inputs : Dict String) :
    Option (Dict String × List String) :=
  (dictGet? inputs p.input_key).map (fun x =>
    let r := simpleRunStepsA p.strip_outputs p.chains x
    ([(p.output_key, r.1)], r.2))

/-!
Spec-side definitions, worded from the specification's validity conditions,
to be compared with the source-side `validateChains`.
-/

/-- The chain's own memory keys as a set (`∅` when it has no memory). -/
def memKeys {V : Type} (c : ChainStep V) : Finset Name :=
  (c.memory.getD []).toFinset

/-- Spec condition on the pipeline-level memory: its keys (if any) are
disjoint from `input_variables`. -/
def memOverlapOk (input_variables : List Name) (memory : Option (List Name)) : Bool :=
  match memory with
  | none => true
  | some memory_keys => decide (input_variables.toFinset ∩ memory_keys.toFinset = ∅)

/-- The known-set at the start of the loop:
`input_variables ∪ memory_keys`. -/
def startKnown (input_variables : List Name) (memory : Option (List Name)) : Finset Name :=
  (input_variables ++ memory.getD []).toFinset

/-- The known-set after folding a list of steps into `known`. -/
def knownAfter {V : Type} (known : Finset Name) (steps : List (ChainStep V)) : Finset Name :=
  steps.foldl (fun k c => k ∪ c.output_keys.toFinset) known

/-- Spec validity of a step sequence from a given known-set: at each position,
the step's required inputs minus its own memory keys are contained in the
cumulative known-set, and its produced outputs do not intersect it. -/
def specValidSteps {V : Type} : Finset Name → List (ChainStep V) → Bool
  | _, [] => true
  | known, c :: rest =>
    decide (c.input_keys.toFinset \ memKeys c ⊆ known) &&
    decide (known ∩ c.output_keys.toFinset = ∅) &&
    specValidSteps (known ∪ c.output_keys.toFinset) rest

/-- Spec condition on declared outputs: when given, they are a subset of the
final known-set. -/
def outsOk (output_variables : Option (List Name)) (known : Finset Name) : Bool :=
  match output_variables with
  | none => true
  | some o => decide (o.toFinset ⊆ known)

/-- Spec-worded scalar composition: the left-to-right composition of the
steps, each intermediate stripped exactly when the flag is set. -/
def specScalarCompose (strip : Bool) (chains : List ScalarStep) (x : String) : String :=
  chains.foldl (fun v c => stripIf strip (c.runS v)) x

/-- Spec-worded observer reports: after each step, the (possibly stripped)
current value is reported. -/
def specScalarReports (strip : Bool) : List ScalarStep → String → List String
  | [], _ => []
  | c :: rest, x =>
    let y := stripIf strip (c.runS x)
    y :: specScalarReports strip rest y

/-!
Concrete instances, used to evaluate the definitions on the worked examples
of the specification.
-/

/-- A step requiring `a` and producing `b := 2`. -/
def step1 : ChainStep Nat :=
  { input_keys := ["a"], output_keys := ["b"], memory := none,
    run := fun _ => [("b", 2)], arun := fun _ => [("b", 2)] }

/-- A step requiring `b` and producing `c := 3`. -/
def step2 : ChainStep Nat :=
  { input_keys := ["b"], output_keys := ["c"], memory := none,
    run := fun _ => [("c", 3)], arun := fun _ => [("c", 3)] }

/-- The pipeline of the spec's threading example, as validated construction
leaves it (`output_variables` defaulted to the last step's outputs). -/
def exPipe : SequentialChainS Nat :=
  { chains := [step1, step2], input_variables := ["a"],
    output_variables := ["c"], return_all := false }

/-- A step requiring the never-produced name `z` and producing `w`. -/
def stepZ : ChainStep Nat :=
  { input_keys := ["z"], output_keys := ["w"], memory := none,
    run := fun _ => [("w", 4)], arun := fun _ => [("w", 4)] }

/-- Scalar step mapping a string to upper case. -/
def upperStep : ScalarStep :=
  { input_keys := ["input"], output_keys := ["output"],
    runS := fun s => String.mk (s.data.map Char.toUpper),
    arunS := fun s => String.mk (s.data.map Char.toUpper) }

/-- Scalar step reversing a string. -/
def reverseStep : ScalarStep :=
  { input_keys := ["input"], output_keys := ["output"],
    runS := fun s => String.mk s.data.reverse,
    arunS := fun s => String.mk s.data.reverse }

/-- The spec's scalar example with trimming disabled. -/
def pNoStrip : SimpleSequentialChainS :=
  { chains := [upperStep, reverseStep], strip_outputs := false,
    input_key := "input", output_key := "output" }

/-- The spec's scalar example with trimming enabled. -/
def pStrip : SimpleSequentialChainS :=
  { chains := [upperStep, reverseStep], strip_outputs := true,
    input_key := "input", output_key := "output" }

/-!  Lemmas about the validator. -/

theorem stepMissing_eq {V : Type} (known : Finset Name) (c : ChainStep V) :
    stepMissing known c = (c.input_keys.toFinset \ memKeys c) \ known := by
  unfold stepMissing memKeys
  cases c.memory with
  | none => simp
  | some mem => simp [sdiff_right_comm]

theorem stepMissing_empty_iff {V : Type} (known : Finset Name) (c : ChainStep V) :
    stepMissing known c = ∅ ↔ c.input_keys.toFinset \ memKeys c ⊆ known := by
  rw [stepMissing_eq, Finset.sdiff_eq_empty_iff_subset]

theorem checkSteps_ok_of_valid {V : Type} (steps : List (ChainStep V)) (known : Finset Name)
    (h : specValidSteps known steps = true) :
    checkSteps steps known = .ok (knownAfter known steps) := by
  induction steps generalizing known with
  | nil => rfl
  | cons c rest ih =>
    simp only [specValidSteps, Bool.and_eq_true, decide_eq_true_eq] at h
    obtain ⟨⟨hsub, hdisj⟩, hrest⟩ := h
    have hmiss : stepMissing known c = ∅ := (stepMissing_empty_iff known c).mpr hsub
    simp only [checkSteps, hmiss, hdisj, ne_eq, not_true_eq_false, if_false,
      not_not, if_true, knownAfter, List.foldl_cons]
    exact ih (known ∪ c.output_keys.toFinset) hrest

theorem checkSteps_append {V : Type} (pre steps : List (ChainStep V)) (known : Finset Name)
    (h : specValidSteps known pre = true) :
    checkSteps (pre ++ steps) known = checkSteps steps (knownAfter known pre) := by
  induction pre generalizing known with
  | nil => rfl
  | cons c rest ih =>
    simp only [specValidSteps, Bool.and_eq_true, decide_eq_true_eq] at h
    obtain ⟨⟨hsub, hdisj⟩, hrest⟩ := h
    have hmiss : stepMissing known c = ∅ := (stepMissing_empty_iff known c).mpr hsub
    simp only [List.cons_append, checkSteps, hmiss, hdisj, ne_eq, not_true_eq_false,
      if_false, not_not, if_true, knownAfter, List.foldl_cons]
    exact ih (known ∪ c.output_keys.toFinset) hrest

theorem checkSteps_ne_indexError {V : Type} (steps : List (ChainStep V)) (known : Finset Name) :
    checkSteps steps known ≠ .error .indexError := by
  induction steps generalizing known with
  | nil => simp [checkSteps]
  | cons c rest ih =>
    simp only [checkSteps]
    split
    · simp
    · split
      · simp
      · exact ih _

theorem validateChains_eq_tail {V : Type} (chains : List (ChainStep V)) (ins : List Name)
    (mem : Option (List Name)) (outs : Option (List Name)) (ra : Bool)
    (h : memOverlapOk ins mem = true) :
    validateChains chains ins mem outs ra = validateTail chains ins (mem.getD []) outs ra := by
  cases mem with
  | none => rfl
  | some mk =>
    simp only [memOverlapOk, decide_eq_true_eq] at h
    simp [validateChains, h]

theorem startKnown_eq (ins : List Name) (mem : Option (List Name)) :
    (ins ++ mem.getD []).toFinset = startKnown ins mem := rfl

/-- C6: if the pipeline-level memory keys intersect `input_variables`,
construction fails with the overlapping-memory-keys error carrying exactly the
intersection — for every chain list, i.e. before any step's inputs or outputs
are inspected. -/
theorem overlapping_memory_fails {V : Type} (chains : List (ChainStep V)) (ins mk : List Name)
    (outs : Option (List Name)) (ra : Bool)
    (h : ins.toFinset ∩ mk.toFinset ≠ ∅) :
    validateChains chains ins (some mk) outs ra =
      .error (.overlappingMemoryKeys (ins.toFinset ∩ mk.toFinset) mk) := by
  simp [validateChains, h]

theorem overlapping_memory_fails_witness :
    (["input"].toFinset ∩ ["y", "input"].toFinset ≠ ∅) ∧
    validateChains [step1, step2] ["input"] (some ["y", "input"]) none false =
      .error (.overlappingMemoryKeys (["input"].toFinset ∩ ["y", "input"].toFinset)
        ["y", "input"]) :=
  ⟨by decide, overlapping_memory_fails [step1, step2] ["input"] ["y", "input"] none false
    (by decide)⟩

/-- C10: with an empty chain list, no declared `output_variables` and
`return_all = false`, validation reaches `chains[-1]` and fails with the
index-out-of-bounds error (not one of the named validation errors); for every
non-empty chain list the index error is unreachable. -/
theorem empty_chains_index_error :
    (∀ (V : Type) (ins : List Name) (mem : Option (List Name)),
      memOverlapOk ins mem = true →
      validateChains (V := V) [] ins mem none false = .error .indexError) ∧
    (∀ (V : Type) (chains : List (ChainStep V)) (ins : List Name)
      (mem : Option (List Name)) (outs : Option (List Name)) (ra : Bool),
      chains ≠ [] →
      validateChains chains ins mem outs ra ≠ .error .indexError) := by
  constructor
  · intro V ins mem hmem
    rw [validateChains_eq_tail _ _ _ _ _ hmem]
    rfl
  · intro V chains ins mem outs ra hne
    have hlast : chains.getLast? ≠ none := by
      simpa [List.getLast?_eq_none_iff] using hne
    have htail : ∀ mk, validateTail chains ins mk outs ra ≠ .error .indexError := by
      intro mk
      unfold validateTail
      cases hck : checkSteps chains (ins ++ mk).toFinset with
      | error e =>
        intro hcontra
        simp only at hcontra
        cases hcontra
        exact checkSteps_ne_indexError chains (ins ++ mk).toFinset hck
      | ok known =>
        cases outs with
        | none =>
          cases ra with
          | true => simp
          | false =>
            cases hl : chains.getLast? with
            | none => exact absurd hl hlast
            | some c => simp
        | some o =>
          by_cases hsub : o.toFinset \ known = ∅ <;> simp [hsub]
    cases mem with
    | none => exact htail []
    | some mk =>
      by_cases hov : ins.toFinset ∩ mk.toFinset = ∅
      · rw [validateChains_eq_tail]
        · exact htail mk
        · simp [memOverlapOk, hov]
      · simp [validateChains, hov]

theorem empty_chains_index_error_witness :
    validateChains (V := Nat) [] [] none none false = .error .indexError ∧
    validateChains [step1, step2] ["a"] none none false ≠ .error .indexError :=
  ⟨empty_chains_index_error.1 Nat [] none rfl,
   empty_chains_index_error.2 Nat [step1, step2] ["a"] none none false (by simp)⟩

/-- C1 counterexample: the empty chain list with empty inputs, no memory, no
declared outputs and `return_all = false` satisfies all four validity
conditions of the claim, yet construction does not succeed (it raises the
index error of `chains[-1]`). -/
theorem valid_construction_counterexample :
    memOverlapOk [] none = true ∧
    specValidSteps (startKnown [] none) ([] : List (ChainStep Nat)) = true ∧
    outsOk none (knownAfter (startKnown [] none) ([] : List (ChainStep Nat))) = true ∧
    ¬ ∃ o, validateChains ([] : List (ChainStep Nat)) [] none none false = .ok o := by
  refine ⟨rfl, rfl, rfl, ?_⟩
  rintro ⟨o, ho⟩
  have : validateChains ([] : List (ChainStep Nat)) [] none none false =
      .error .indexError := rfl
  rw [this] at ho
  exact Except.noConfusion ho

/-- C1 (amended): under the claim's four conditions — memory keys disjoint
from inputs, every step's requirements (minus its own memory keys) covered by
the cumulative known-set, no output colliding with the known-set, and declared
outputs (if any) contained in the final known-set — and provided the
construction is not the degenerate empty-chains/no-declared-outputs/
`return_all = false` case, validation succeeds with a deterministic
output-name set. -/
theorem valid_construction_succeeds {V : Type} (chains : List (ChainStep V))
    (ins : List Name) (mem : Option (List Name)) (outs : Option (List Name)) (ra : Bool)
    (hmem : memOverlapOk ins mem = true)
    (hval : specValidSteps (startKnown ins mem) chains = true)
    (houts : outsOk outs (knownAfter (startKnown ins mem) chains) = true)
    (hnd : chains ≠ [] ∨ outs ≠ none ∨ ra = true) :
    ∃ o, validateChains chains ins mem outs ra = .ok o := by
  rw [validateChains_eq_tail _ _ _ _ _ hmem]
  unfold validateTail
  rw [startKnown_eq, checkSteps_ok_of_valid chains (startKnown ins mem) hval]
  cases outs with
  | some o =>
    simp only [outsOk, decide_eq_true_eq] at houts
    have : o.toFinset \ knownAfter (startKnown ins mem) chains = ∅ :=
      Finset.sdiff_eq_empty_iff_subset.mpr houts
    exact ⟨o.toFinset, by simp [this]⟩
  | none =>
    cases ra with
    | true => exact ⟨knownAfter (startKnown ins mem) chains \ ins.toFinset, rfl⟩
    | false =>
      have hne : chains ≠ [] := by
        rcases hnd with h | h | h
        · exact h
        · exact absurd rfl h
        · exact absurd h (by simp)
      have hlast : chains.getLast? ≠ none := by
        simpa [List.getLast?_eq_none_iff] using hne
      cases hl : chains.getLast? with
      | none => exact absurd hl hlast
      | some c => exact ⟨c.output_keys.toFinset, by simp [hl]⟩

theorem valid_construction_succeeds_witness :
    memOverlapOk ["a"] none = true ∧
    specValidSteps (startKnown ["a"] none) [step1, step2] = true ∧
    outsOk none (knownAfter (startKnown ["a"] none) [step1, step2]) = true ∧
    ([step1, step2] ≠ ([] : List (ChainStep Nat)) ∨ (none : Option (List Name)) ≠ none ∨
      false = true) ∧
    ∃ o, validateChains [step1, step2] ["a"] none none false = .ok o :=
  ⟨by decide, by decide, rfl, Or.inl (by simp),
   valid_construction_succeeds [step1, step2] ["a"] none none false (by decide) (by decide)
     rfl (Or.inl (by simp))⟩

/-- C2: if every step before position `j` validates, and at position `j` the
set `required_inputs − known − own memory keys` is non-empty, construction
fails with the missing-input error carrying exactly that set and the known-set
at `j`; if instead that set is empty but the step's outputs intersect the
known-set, it fails with the duplicate-output error carrying exactly the
intersection.  The first violating step (and, within it, the missing-input
check) determines the error. -/
theorem first_violation_determines_error {V : Type} (pre : List (ChainStep V))
    (c : ChainStep V) (post : List (ChainStep V)) (ins : List Name)
    (mem : Option (List Name)) (outs : Option (List Name)) (ra : Bool)
    (hmem : memOverlapOk ins mem = true)
    (hpre : specValidSteps (startKnown ins mem) pre = true) :
    (stepMissing (knownAfter (startKnown ins mem) pre) c ≠ ∅ →
      validateChains (pre ++ c :: post) ins mem outs ra =
        .error (.missingInput (stepMissing (knownAfter (startKnown ins mem) pre) c)
          (knownAfter (startKnown ins mem) pre))) ∧
    (stepMissing (knownAfter (startKnown ins mem) pre) c = ∅ →
      knownAfter (startKnown ins mem) pre ∩ c.output_keys.toFinset ≠ ∅ →
      validateChains (pre ++ c :: post) ins mem outs ra =
        .error (.duplicateOutput
          (knownAfter (startKnown ins mem) pre ∩ c.output_keys.toFinset))) := by
  rw [validateChains_eq_tail _ _ _ _ _ hmem]
  unfold validateTail
  rw [startKnown_eq, checkSteps_append pre (c :: post) (startKnown ins mem) hpre]
  constructor
  · intro hmiss
    simp [checkSteps, hmiss]
  · intro hmiss hdup
    simp [checkSteps, hmiss, hdup]

theorem first_violation_determines_error_witness :
    (stepMissing (knownAfter (startKnown ["a"] none) [step1]) stepZ ≠ ∅) ∧
    validateChains [step1, stepZ, step2] ["a"] none none false =
      .error (.missingInput (stepMissing (knownAfter (startKnown ["a"] none) [step1]) stepZ)
        (knownAfter (startKnown ["a"] none) [step1])) ∧
    (knownAfter (startKnown ["a"] none) [step1] ∩ step1.output_keys.toFinset ≠ ∅) ∧
    validateChains [step1, step1, step2] ["a"] none none false =
      .error (.duplicateOutput
        (knownAfter (startKnown ["a"] none) [step1] ∩ step1.output_keys.toFinset)) :=
  ⟨by decide,
   (first_violation_determines_error [step1] stepZ [step2] ["a"] none none false
     rfl (by decide)).1 (by decide),
   by decide,
   (first_violation_determines_error [step1] step1 [step2] ["a"] none none false
     rfl (by decide)).2 (by decide) (by decide)⟩

/-- C3: for a construction whose memory check and per-step loop both pass —
if `output_variables` is not declared, the result is the final known-set minus
the inputs when `return_all` is true, and the last step's outputs when it is
false; if `output_variables` is declared, construction fails with the
unknown-output error exactly when it is not contained in the final known-set,
and otherwise yields the declared set. -/
theorem output_determination {V : Type} (chains : List (ChainStep V)) (ins : List Name)
    (mem : Option (List Name))
    (hmem : memOverlapOk ins mem = true)
    (hval : specValidSteps (startKnown ins mem) chains = true) :
    (validateChains chains ins mem none true =
      .ok (knownAfter (startKnown ins mem) chains \ ins.toFinset)) ∧
    (∀ c, chains.getLast? = some c →
      validateChains chains ins mem none false = .ok c.output_keys.toFinset) ∧
    (∀ o ra, o.toFinset ⊆ knownAfter (startKnown ins mem) chains →
      validateChains chains ins mem (some o) ra = .ok o.toFinset) ∧
    (∀ o ra, ¬ o.toFinset ⊆ knownAfter (startKnown ins mem) chains →
      validateChains chains ins mem (some o) ra =
        .error (.unknownOutput (o.toFinset \ knownAfter (startKnown ins mem) chains))) := by
  have hck := checkSteps_ok_of_valid chains (startKnown ins mem) hval
  refine ⟨?_, ?_, ?_, ?_⟩
  · rw [validateChains_eq_tail _ _ _ _ _ hmem]
    unfold validateTail
    rw [startKnown_eq, hck]
    rfl
  · intro c hl
    rw [validateChains_eq_tail _ _ _ _ _ hmem]
    unfold validateTail
    rw [startKnown_eq, hck]
    simp [hl]
  · intro o ra hsub
    rw [validateChains_eq_tail _ _ _ _ _ hmem]
    unfold validateTail
    rw [startKnown_eq, hck]
    simp [Finset.sdiff_eq_empty_iff_subset.mpr hsub]
  · intro o ra hsub
    rw [validateChains_eq_tail _ _ _ _ _ hmem]
    unfold validateTail
    rw [startKnown_eq, hck]
    have : ¬ o.toFinset \ knownAfter (startKnown ins mem) chains = ∅ := by
      simpa [Finset.sdiff_eq_empty_iff_subset] using hsub
    simp [this]

theorem output_determination_witness :
    validateChains [step1, step2] ["a"] none none true =
      .ok (knownAfter (startKnown ["a"] none) [step1, step2] \ ["a"].toFinset) ∧
    validateChains [step1, step2] ["a"] none none false = .ok step2.output_keys.toFinset ∧
    validateChains [step1, step2] ["a"] none (some ["b"]) false = .ok ["b"].toFinset ∧
    validateChains [step1, step2] ["a"] none (some ["d"]) false =
      .error (.unknownOutput (["d"].toFinset \ knownAfter (startKnown ["a"] none)
        [step1, step2])) :=
  ⟨(output_determination [step1, step2] ["a"] none rfl (by decide)).1,
   (output_determination [step1, step2] ["a"] none rfl (by decide)).2.1 step2 rfl,
   (output_determination [step1, step2] ["a"] none rfl (by decide)).2.2.1 ["b"] false
     (by decide),
   (output_determination [step1, step2] ["a"] none rfl (by decide)).2.2.2 ["d"] false
     (by decide)⟩

/-!  Lemmas about execution. -/

theorem dictGet?_cons {V : Type} (k : Name) (v : V) (l : Dict V) (k0 : Name) :
    dictGet? ((k, v) :: l) k0 = if k == k0 then some v else dictGet? l k0 := by
  unfold dictGet?
  rw [List.find?_cons]
  by_cases h : k = k0
  · simp [h]
  · simp [h, beq_eq_false_iff_ne.mpr h]

theorem projectKeys_some {V : Type} (m : Dict V) (keys : List Name) (l : Dict V)
    (h : projectKeys m keys = some l) :
    l.map Prod.fst = keys ∧ ∀ k, k ∈ keys → dictGet? l k = dictGet? m k := by
  induction keys generalizing l with
  | nil =>
    simp only [projectKeys, List.mapM_nil, Option.pure_def, Option.some_inj] at h
    subst h
    simp
  | cons k ks ih =>
    simp only [projectKeys, List.mapM_cons] at h
    cases hv : dictGet? m k with
    | none => rw [hv] at h; exact absurd h (by simp)
    | some v =>
      rw [hv] at h
      cases hrest : ks.mapM (fun k0 => (dictGet? m k0).map (fun v0 => (k0, v0))) with
      | none => rw [hrest] at h; exact absurd h (by simp)
      | some l2 =>
        rw [hrest] at h
        have hl : l = (k, v) :: l2 := by
          simp at h
          exact h.symm
        subst hl
        obtain ⟨ih1, ih2⟩ := ih l2 hrest
        refine ⟨by simp [ih1], ?_⟩
        intro k0 hk0
        rw [dictGet?_cons]
        by_cases hkk : k = k0
        · subst hkk
          simp [hv]
        · rw [if_neg (by simpa using hkk)]
          rcases List.mem_cons.mp hk0 with h0 | h0
          · exact absurd h0.symm hkk
          · exact ih2 k0 h0

/-- C4: a `SequentialChain` invocation seeds a fresh accumulator from a copy
of the inputs, folds every chain over it in list order (each invoked on the
full accumulator, its outputs merged back in), and returns the projection of
the final accumulator onto exactly `output_variables`; on the threading
example (`{a: 1}`, step producing `{b: 2}`, step producing `{c: 3}`,
`output_variables = [c]`) it returns `{c: 3}`. -/
theorem keyed_invocation :
    (∀ (V : Type) (p : SequentialChainS V) (inputs m : Dict V),
      seqCall p inputs = some m →
      m.map Prod.fst = p.output_variables ∧
      ∀ k, k ∈ p.output_variables →
        dictGet? m k = dictGet? (seqRunSteps p.chains (dictCopy inputs)) k) ∧
    seqCall exPipe [("a", 1)] = some [("c", 3)] := by
  constructor
  · intro V p inputs m h
    exact projectKeys_some (seqRunSteps p.chains (dictCopy inputs)) p.output_variables m h
  · decide

theorem keyed_invocation_witness :
    List.map Prod.fst [(("c" : Name), (3 : Nat))] = exPipe.output_variables ∧
    dictGet? [(("c" : Name), (3 : Nat))] "c" =
      dictGet? (seqRunSteps exPipe.chains (dictCopy [("a", 1)])) "c" :=
  ⟨(keyed_invocation.1 Nat exPipe [("a", 1)] [("c", 3)] (by decide)).1,
   (keyed_invocation.1 Nat exPipe [("a", 1)] [("c", 3)] (by decide)).2 "c" (by decide)⟩

theorem simpleRunSteps_spec (strip : Bool) (chains : List ScalarStep) (x : String) :
    simpleRunSteps strip chains x =
      (specScalarCompose strip chains x, specScalarReports strip chains x) := by
  induction chains generalizing x with
  | nil => rfl
  | cons c rest ih =>
    simp [simpleRunSteps, specScalarCompose, specScalarReports, List.foldl_cons, ih,
      specScalarCompose]

/-- C5: a `SimpleSequentialChain` invocation returns, under the pipeline's
output key, the left-to-right composition of the steps applied to the value at
the input key, each intermediate (and hence the final value) stripped exactly
when `strip_outputs` is set, and reports each intermediate to the observer;
with stripping disabled the composition is unmodified.  The
uppercase/reverse example on `" hi "` evaluates accordingly. -/
theorem scalar_invocation :
    (∀ (p : SimpleSequentialChainS) (inputs : Dict String) (x : String),
      dictGet? inputs p.input_key = some x →
      simpleCall p inputs =
        some ([(p.output_key, specScalarCompose p.strip_outputs p.chains x)],
          specScalarReports p.strip_outputs p.chains x)) ∧
    (∀ (chains : List ScalarStep) (x : String),
      specScalarCompose false chains x = chains.foldl (fun v c => c.runS v) x) ∧
    simpleCall pNoStrip [("input", " hi ")] =
      some ([("output", " IH ")], [" HI ", " IH "]) ∧
    simpleCall pStrip [("input", " hi ")] = some ([("output", "IH")], ["HI", "IH"]) := by
  refine ⟨?_, ?_, by decide, by decide⟩
  · intro p inputs x h
    unfold simpleCall
    rw [h]
    simp [simpleRunSteps_spec]
  · intro chains x
    unfold specScalarCompose
    induction chains generalizing x with
    | nil => rfl
    | cons c rest ih => simp [List.foldl_cons, stripIf, ih]

theorem scalar_invocation_witness :
    dictGet? [(("input" : Name), " hi ")] pNoStrip.input_key = some " hi " ∧
    simpleCall pNoStrip [("input", " hi ")] =
      some ([(pNoStrip.output_key, specScalarCompose pNoStrip.strip_outputs pNoStrip.chains
        " hi ")], specScalarReports pNoStrip.strip_outputs pNoStrip.chains " hi ") :=
  ⟨by decide, scalar_invocation.1 pNoStrip [("input", " hi ")] " hi " (by decide)⟩

/-- C7: `SimpleSequentialChain` construction succeeds exactly when every
chain declares one input key and one output key — with no condition relating
consecutive chains' names — and an arity error always names a chain actually
in the list together with its true, non-1 arity. -/
theorem scalar_arity_validation :
    (∀ chains : List ScalarStep, simpleValidate chains = .ok () ↔
      ∀ c ∈ chains, c.input_keys.length = 1 ∧ c.output_keys.length = 1) ∧
    (∀ (chains : List ScalarStep) (c : ScalarStep) (n : Nat),
      simpleValidate chains = .error (.arityInput c n) →
      c ∈ chains ∧ c.input_keys.length = n ∧ n ≠ 1) ∧
    (∀ (chains : List ScalarStep) (c : ScalarStep) (n : Nat),
      simpleValidate chains = .error (.arityOutput c n) →
      c ∈ chains ∧ c.output_keys.length = n ∧ n ≠ 1) := by
  refine ⟨?_, ?_, ?_⟩
  · intro chains
    induction chains with
    | nil => simp [simpleValidate]
    | cons c rest ih =>
      by_cases h1 : c.input_keys.length = 1
      · by_cases h2 : c.output_keys.length = 1
        · simp [simpleValidate, h1, h2, ih]
        · simp [simpleValidate, h1, h2]
      · simp [simpleValidate, h1]
  · intro chains c n
    induction chains with
    | nil => intro h; exact absurd h (by simp [simpleValidate])
    | cons c0 rest ih =>
      intro h
      unfold simpleValidate at h
      by_cases h1 : c0.input_keys.length = 1
      · rw [if_neg (by simp [h1])] at h
        by_cases h2 : c0.output_keys.length = 1
        · rw [if_neg (by simp [h2])] at h
          obtain ⟨hc, hlen, hne⟩ := ih h
          exact ⟨List.mem_cons_of_mem c0 hc, hlen, hne⟩
        · rw [if_pos h2] at h
          exact absurd h (by simp)
      · rw [if_pos h1] at h
        injection h with h0
        injection h0 with hc hn
        subst hc
        refine ⟨List.mem_cons_self c0 rest, hn, ?_⟩
        rw [hn] at h1
        exact h1
  · intro chains c n
    induction chains with
    | nil => intro h; exact absurd h (by simp [simpleValidate])
    | cons c0 rest ih =>
      intro h
      unfold simpleValidate at h
      by_cases h1 : c0.input_keys.length = 1
      · rw [if_neg (by simp [h1])] at h
        by_cases h2 : c0.output_keys.length = 1
        · rw [if_neg (by simp [h2])] at h
          obtain ⟨hc, hlen, hne⟩ := ih h
          exact ⟨List.mem_cons_of_mem c0 hc, hlen, hne⟩
        · rw [if_pos h2] at h
          injection h with h0
          injection h0 with hc hn
          subst hc
          refine ⟨List.mem_cons_self c0 rest, hn, ?_⟩
          rw [hn] at h2
          exact h2
      · rw [if_pos h1] at h
        exact absurd h (by simp)

theorem scalar_arity_validation_witness :
    simpleValidate [upperStep, reverseStep] = .ok () :=
  (scalar_arity_validation.1 [upperStep, reverseStep]).mpr
    (by simp [upperStep, reverseStep])

theorem seqRunStepsA_eq_run {V : Type} (chains : List (ChainStep V))
    (h : ∀ c ∈ chains, c.arun = c.run) (acc : Dict V) :
    seqRunStepsA chains acc = seqRunSteps chains acc := by
  induction chains generalizing acc with
  | nil => rfl
  | cons c rest ih =>
    simp only [seqRunStepsA, seqRunSteps, List.foldl_cons]
    rw [h c (List.mem_cons_self c rest)]
    exact ih (fun c0 hc0 => h c0 (List.mem_cons_of_mem c hc0)) (dictUpdate acc (c.run acc))

theorem simpleRunStepsA_eq_run (strip : Bool) (chains : List ScalarStep)
    (h : ∀ c ∈ chains, c.arunS = c.runS) (x : String) :
    simpleRunStepsA strip chains x = simpleRunSteps strip chains x := by
  induction chains generalizing x with
  | nil => rfl
  | cons c rest ih =>
    simp only [simpleRunStepsA, simpleRunSteps]
    rw [h c (List.mem_cons_self c rest)]
    rw [ih (fun c0 hc0 => h c0 (List.mem_cons_of_mem c hc0))]

/-- C8: for both pipeline kinds, when every step's suspendable form agrees
with its blocking form, the suspendable invocation (`_acall`) returns the same
result — including, for the scalar pipeline, the same sequence of values
reported to the observer — as the blocking invocation (`_call`). -/
theorem sync_async_agree :
    (∀ (V : Type) (p : SequentialChainS V) (inputs : Dict V),
      (∀ c ∈ p.chains, c.arun = c.run) → seqAcall p inputs = seqCall p inputs) ∧
    (∀ (p : SimpleSequentialChainS) (inputs : Dict String),
      (∀ c ∈ p.chains, c.arunS = c.runS) → simpleAcall p inputs = simpleCall p inputs) := by
  constructor
  · intro V p inputs h
    unfold seqAcall seqCall
    rw [seqRunStepsA_eq_run p.chains h]
  · intro p inputs h
    unfold simpleAcall simpleCall
    simp only [simpleRunStepsA_eq_run p.strip_outputs p.chains h]

theorem sync_async_agree_witness :
    seqAcall exPipe [("a", 1)] = seqCall exPipe [("a", 1)] ∧
    simpleAcall pNoStrip [("input", " hi ")] = simpleCall pNoStrip [("input", " hi ")] :=
  ⟨sync_async_agree.1 Nat exPipe [("a", 1)]
     (by intro c hc; rcases List.mem_cons.mp hc with h | h
         · subst h; rfl
         · rcases List.mem_cons.mp h with h0 | h0
           · subst h0; rfl
           · exact absurd h0 (List.not_mem_nil c)),
   sync_async_agree.2 pNoStrip [("input", " hi ")]
     (by intro c hc; rcases List.mem_cons.mp hc with h | h
         · subst h; rfl
         · rcases List.mem_cons.mp h with h0 | h0
           · subst h0; rfl
           · exact absurd h0 (List.not_mem_nil c))⟩

/-- C9: invocation leaves the pipeline instance and the caller's input map
unchanged (the body writes only to the per-invocation accumulator seeded from
`inputs.copy()`), so a second invocation on the same instance yields exactly
what it would on a fresh instance, computed from its own inputs alone. -/
theorem invocation_isolation :
    ∀ (V : Type) (p : SequentialChainS V) (in1 in2 : Dict V),
      (seqCallState p in1).2.1 = p ∧
      (seqCallState p in1).2.2 = in1 ∧
      (seqCallState ((seqCallState p in1).2.1) in2).1 = (seqCallState p in2).1 ∧
      (seqCallState p in2).1 =
        projectKeys (seqRunSteps p.chains (dictCopy in2)) p.output_variables :=
  fun _ _ _ _ => ⟨rfl, rfl, rfl, rfl⟩

end Sequential
